import Mathlib

/-!
Verification of the `domdiff` tree-diff algorithm from
`src/language/HTMLDOMDiff.js` (the `nimble` repository).

The JavaScript source is shallowly embedded below.  SimpleDOM nodes become the
inductive type `SNode`; the dynamically shaped edit objects become the `Edit`
structure in which every optional JS field is an `Option` (or a `Bool` for the
flag fields `firstChild` / `lastChild` / `beforeText`, which in JS are either
absent or `true`).  The closure-captured mutable locals of `domdiff`
(`edits`, `newEdits`, `textAfterID`, `moves`, `queue`, and the
`console.error` anomaly reports) are threaded through explicitly as the
`AState` record.  The two-pointer child alignment loop of
`generateChildEdits` becomes `alignStep` (one iteration of the JS `while`
loops) driven by `alignLoop`; the work-queue walk of `domdiff` becomes
`driverStep` / `driverLoop`.  Both loops take a fuel argument that is, by
construction, large enough that the fuel-exhausted branch is never reached
(each alignment iteration consumes at least one child from one of the two
lists; each driver iteration pops one element of the new tree and pushes only
strict descendants of it).

The `parent` back-pointers and the `nodeMap` field of a snapshot are produced
by the external tree builder; here they are derived from the root by `nodeMap`
(each Element's tagID maps to its parent's tagID and the node itself), which
is exactly the builder contract the source trusts.  Tag IDs in SimpleDOM are
positive, so the JS truthiness test `if (textAfterID)` coincides with
presence and is modelled as the `Option` being `some`.
-/

set_option maxHeartbeats 1000000

namespace HTMLDOMDiff

/-- The `type` string of an edit operation in `HTMLDOMDiff.js`. -/
inductive EditType where
  | elementInsert
  | elementDelete
  | elementMove
  | textInsert
  | textDelete
  | textReplace
  | attrAdd
  | attrChange
  | attrDelete
  | rememberNodes
  deriving DecidableEq, Repr

/-- One edit record.  JS edit objects carry only the fields meaningful to
their `type`; an absent field is `none` (or `false` for the flags that JS
sets to `true` or deletes).  `parentID` is `Option (Option Nat)` because the
root `elementInsert` explicitly carries `parentID: null` (`some none`),
which is distinct from the field being absent (`none`).
`attrName` embeds the JS field called `attribute`. -/
structure Edit where
  type : EditType
  tag : Option String := none
  tagID : Option Nat := none
  parentID : Option (Option Nat) := none
  attributes : Option (List (String × String)) := none
  attrName : Option String := none
  value : Option String := none
  content : Option String := none
  afterID : Option Nat := none
  beforeID : Option Nat := none
  firstChild : Bool := false
  lastChild : Bool := false
  beforeText : Bool := false
  tagIDs : Option (List Nat) := none
  deriving DecidableEq, Repr

/-- The element-specific fields of a SimpleDOM node: tag name, stable tag ID,
attribute map, and the three precomputed fingerprints supplied by the
external tree builder and trusted by the diff. -/
structure ElemData where
  tag : String
  tagID : Nat
  attributes : List (String × String)
  attributeSignature : Nat
  childSignature : Nat
  subtreeSignature : Nat
  deriving DecidableEq, Repr

/-- A SimpleDOM node: an Element with ordered children, or a Text node with
content and its precomputed text fingerprint. -/
inductive SNode where
  | elem (data : ElemData) (children : List SNode)
  | text (content : String) (textSignature : Nat)
  deriving Repr

mutual

/-- Number of nodes in a tree (used as driver fuel). -/
def sizeN : SNode → Nat
  | .elem _ cs => sizeL cs + 1
  | .text _ _ => 1

/-- Number of nodes in a forest. -/
def sizeL : List SNode → Nat
  | [] => 0
  | c :: cs => sizeN c + sizeL cs

end

/-- A snapshot's `nodeMap`, derived from the root: every Element's tagID
mapped to its parent's tagID (`none` for the root, mirroring the `parent`
back-pointer read by `getParentID`) and the node itself. -/
abbrev NodeMap := List (Nat × Option Nat × SNode)

mutual

/-- `nodeMap` entries contributed by one node, given its parent's tagID. -/
def nodeMapN (p : Option Nat) : SNode → NodeMap
  | .elem d cs => (d.tagID, p, .elem d cs) :: nodeMapL (some d.tagID) cs
  | .text _ _ => []

/-- `nodeMap` entries contributed by a forest. -/
def nodeMapL (p : Option Nat) : List SNode → NodeMap
  | [] => []
  | c :: cs => nodeMapN p c ++ nodeMapL p cs

end

/-- Object-key lookup in a nodeMap (`oldNodeMap[tagID]`): the first entry for
the given tag ID, yielding the node's parent tagID and the node. -/
def nmFind : NodeMap → Nat → Option (Option Nat × SNode)
  | [], _ => none
  | e :: rest, id => if e.1 = id then some e.2 else nmFind rest id

/-- Object-key lookup in an attribute map (`attrs[name]`). -/
def lookupA : List (String × String) → String → Option String
  | [], _ => none
  | p :: rest, name => if p.1 = name then some p.2 else lookupA rest name

/-- One step of `generateAttributeEdits`'s loop over the new attribute
names: compare the name's value against the progressively shrinking copy of
the old attributes (`oldAttributes[name] !== newAttributes[name]`, with
`hasOwnProperty` picking `attrChange` over `attrAdd`), then
`delete oldAttributes[name]`. -/
def gaeStep (tagID0 : Nat) (acc : List Edit × List (String × String))
    (p : String × String) : List Edit × List (String × String) :=
  let es :=
    if lookupA acc.2 p.1 ≠ some p.2 then
      acc.1 ++ [{ type := if (lookupA acc.2 p.1).isSome then .attrChange else .attrAdd,
                  tagID := some tagID0, attrName := some p.1, value := some p.2 }]
    else acc.1
  (es, acc.2.filter (fun q => q.1 ≠ p.1))

/-- The whole of `generateAttributeEdits`: the fold over the new names,
followed by `attrDelete` edits for the names remaining in the old copy. -/
def generateAttributeEdits (oldD newD : ElemData) : List Edit :=
  let r := newD.attributes.foldl (gaeStep oldD.tagID) ([], oldD.attributes)
  r.1 ++ r.2.map (fun q =>
    { type := EditType.attrDelete, tagID := some oldD.tagID, attrName := some q.1 })

/-- The mutable locals shared by `domdiff`'s closures: the main edit list,
the per-parent pending list `newEdits`, the positional cursor `textAfterID`,
the recorded `moves`, the nodes pushed onto the driver queue by
`addElementInsert`, and a count of `console.error` anomaly reports. -/
structure AState where
  edits : List Edit
  newEdits : List Edit
  textAfterID : Option Nat
  moves : List Nat
  queued : List SNode
  anomalies : Nat
  deriving Repr

/-- The per-call read-only context of `generateChildEdits`: the two
snapshots' nodeMaps, the tagID of the current (new) parent and of the old
parent, and the old parent's child count (`oldChild.parent.children.length`). -/
structure ACtx where
  oldNodeMap : NodeMap
  newNodeMap : NodeMap
  curParentID : Nat
  oldParentID : Nat
  oldLen : Nat
  deriving Repr

/-- `finalizeNewEdits(beforeID)`: stamp `beforeID` on every pending edit
except `elementDelete`, flush the pending list onto the main list and make
`beforeID` the `afterID` anchor for subsequent text edits. -/
def finalizeNewEditsF (b : Nat) (st : AState) : AState :=
  { st with
    edits := st.edits ++ st.newEdits.map (fun e =>
      if e.type = .elementDelete then e else { e with beforeID := some b }),
    newEdits := [],
    textAfterID := some b }

/-- `addElementInsert()`: if the current child's tagID is absent from the old
nodeMap, push an `elementInsert`, queue the child for the driver, and move
the text anchor to it; `none` mirrors `return false`. -/
def addElementInsertF (ctx : ACtx) (cd : ElemData) (ccs : List SNode)
    (st : AState) : Option AState :=
  if (nmFind ctx.oldNodeMap cd.tagID).isNone then
    some { st with
      newEdits := st.newEdits ++
        [{ type := .elementInsert, tag := some cd.tag, tagID := some cd.tagID,
           parentID := some (some ctx.curParentID), attributes := some cd.attributes }],
      queued := st.queued ++ [.elem cd ccs],
      textAfterID := some cd.tagID }
  else none

/-- `addElementDelete()`: if the old child's tagID is absent from the new
nodeMap, push an `elementDelete`; `none` mirrors `return false`. -/
def addElementDeleteF (ctx : ACtx) (od : ElemData) (st : AState) : Option AState :=
  if (nmFind ctx.newNodeMap od.tagID).isNone then
    some { st with
      newEdits := st.newEdits ++ [{ type := .elementDelete, tagID := some od.tagID }] }
  else none

/-- `addTextInsert()`: push a `textInsert` anchored by `afterID` when a text
anchor exists and flagged `firstChild` otherwise. -/
def addTextInsertF (ctx : ACtx) (content : String) (st : AState) : AState :=
  { st with newEdits := st.newEdits ++
      [{ type := .textInsert, content := some content,
         parentID := some (some ctx.curParentID),
         afterID := st.textAfterID, firstChild := st.textAfterID.isNone }] }

/-- The merge test of `addTextDelete`: the previously pushed pending edit is a
`textReplace` following the same anchor (`previousEdit.afterID === textAfterID`). -/
def mergedCond (st : AState) : Bool :=
  match st.newEdits.getLast? with
  | some pe => pe.type == EditType.textReplace && pe.afterID == st.textAfterID
  | none => false

/-- `addTextDelete()`: a `textReplace` keeping the previous new-tree text when
the previous new child is a text node, else a `textDelete`; skipped entirely
when it would merge into the pending `textReplace` for the same anchor; with
the positional anchor omitted when the old parent had exactly one child. -/
def addTextDeleteF (ctx : ACtx) (prevNew : Option SNode) (st : AState) : AState :=
  if mergedCond st then st
  else
    let tc : EditType × Option String := match prevNew with
      | some (.text c _) => (.textReplace, some c)
      | _ => (.textDelete, none)
    { st with newEdits := st.newEdits ++
        [{ type := tc.1, content := tc.2, parentID := some (some ctx.oldParentID),
           afterID := if ctx.oldLen = 1 then none else st.textAfterID }] }

/-- `addElementMove()`: if the current child's tagID is in the *old* nodeMap
under a different parent, push an `elementMove` and record the moved ID;
`none` mirrors `return false`.  (`currentParent.tagID !== getParentID(...)`
also fires when the element used to be the old root, whose parent is null.) -/
def addElementMoveF (ctx : ACtx) (cd : ElemData) (st : AState) : Option AState :=
  match nmFind ctx.oldNodeMap cd.tagID with
  | some pr =>
    if pr.1 ≠ some ctx.curParentID then
      some { st with
        newEdits := st.newEdits ++
          [{ type := .elementMove, tagID := some cd.tagID,
             parentID := some (some ctx.curParentID) }],
        moves := st.moves ++ [cd.tagID] }
    else none
  | none => none

/-- `fixupElementInsert()`: flag every pending `elementInsert` as
`beforeText`. -/
def fixupElementInsertF (st : AState) : AState :=
  { st with newEdits := st.newEdits.map (fun e =>
      if e.type = .elementInsert then { e with beforeText := true } else e) }

/-- `hasMoved(oldChild)`: the old child is an Element that still exists in the
new tree but under a different parent. -/
def hasMovedF (ctx : ACtx) : SNode → Bool
  | .elem d _ =>
    match nmFind ctx.newNodeMap d.tagID with
    | some pr => decide (some ctx.oldParentID ≠ pr.1)
    | none => false
  | .text _ _ => false

/-- The `textReplace` pushed when two text children have different
signatures. -/
def textReplaceBothF (ctx : ACtx) (content : String) (st : AState) : AState :=
  { st with newEdits := st.newEdits ++
      [{ type := .textReplace, content := some content,
         parentID := some (some ctx.curParentID), afterID := st.textAfterID }] }

/-- The trailing fixup of `generateChildEdits`: flag every still-pending
insert/move as `lastChild` (deleting `firstChild` and `afterID`), then flush
the pending list onto the main edit list. -/
def finishChildEditsF (st : AState) : AState :=
  { st with
    edits := st.edits ++ st.newEdits.map (fun e =>
      if e.type = .textInsert ∨ e.type = .elementInsert ∨ e.type = .elementMove
      then { e with lastChild := true, firstChild := false, afterID := none }
      else e),
    newEdits := [] }

/-- The result of one iteration of the child-alignment loops: the remaining
new children, remaining old children, the previous new child
(`children[currentIndex - 1]`, consulted by `prevNode()`), and the updated
state. -/
structure StepOut where
  cur : List SNode
  old : List SNode
  prevNew : Option SNode
  st : AState
  deriving Repr

/-- One iteration of the `while` loops of `generateChildEdits`, covering the
main two-pointer loop (both lists nonempty), the trailing-old drain and the
trailing-new drain.  The branch order mirrors the source exactly: the
move-out check, the move-in (`hasMoved`) skip, then the kind dispatch. -/
def alignStep (ctx : ACtx) : List SNode → List SNode → Option SNode → AState → StepOut
  | [], [], prevNew, st => ⟨[], [], prevNew, st⟩
  | [], o :: os, prevNew, st =>
    if hasMovedF ctx o then ⟨[], os, prevNew, st⟩
    else
      match o with
      | .elem od _ =>
        match addElementDeleteF ctx od st with
        | some st1 => ⟨[], os, prevNew, st1⟩
        | none => ⟨[], os, prevNew, { st with anomalies := st.anomalies + 1 }⟩
      | .text _ _ => ⟨[], os, prevNew, addTextDeleteF ctx prevNew st⟩
  | c :: cs, [], _prevNew, st =>
    match c with
    | .elem cd ccs =>
      match addElementMoveF ctx cd st with
      | some st1 => ⟨cs, [], some c, st1⟩
      | none =>
        match addElementInsertF ctx cd ccs st with
        | some st1 => ⟨cs, [], some c, st1⟩
        | none => ⟨cs, [], some c, { st with anomalies := st.anomalies + 1 }⟩
    | .text tc _ => ⟨cs, [], some c, addTextInsertF ctx tc st⟩
  | c :: cs, o :: os, prevNew, st =>
    match c with
    | .elem cd ccs =>
      match addElementMoveF ctx cd st with
      | some st1 => ⟨cs, o :: os, some c, st1⟩
      | none =>
        if hasMovedF ctx o then ⟨c :: cs, os, prevNew, st⟩
        else
          match o with
          | .text _ _ =>
            let st1 := addTextDeleteF ctx prevNew st
            match addElementInsertF ctx cd ccs st1 with
            | some st2 => ⟨cs, os, some c, st2⟩
            | none => ⟨c :: cs, os, prevNew, st1⟩
          | .elem od _ =>
            if cd.tagID = od.tagID then
              ⟨cs, os, some c, finalizeNewEditsF od.tagID st⟩
            else
              match addElementInsertF ctx cd ccs st with
              | some st1 => ⟨cs, o :: os, some c, st1⟩
              | none =>
                match addElementDeleteF ctx od st with
                | some st1 => ⟨c :: cs, os, prevNew, st1⟩
                | none => ⟨cs, os, some c, { st with anomalies := st.anomalies + 1 }⟩
    | .text tc tsig =>
      if hasMovedF ctx o then ⟨c :: cs, os, prevNew, st⟩
      else
        match o with
        | .elem od _ =>
          match addElementDeleteF ctx od st with
          | some st1 => ⟨c :: cs, os, prevNew, st1⟩
          | none => ⟨cs, o :: os, some c, addTextInsertF ctx tc st⟩
        | .text _ osig =>
          let st1 :=
            if tsig ≠ osig then textReplaceBothF ctx tc st
            else fixupElementInsertF st
          ⟨cs, os, some c, st1⟩

/-- The child-alignment loops run to completion, ending with the trailing
fixup.  Each `alignStep` consumes at least one child, so fuel
`cur.length + old.length` always reaches the `[], []` case. -/
def alignLoop (ctx : ACtx) : Nat → List SNode → List SNode → Option SNode → AState → AState
  | _, [], [], _, st => finishChildEditsF st
  | 0, _, _, _, st => finishChildEditsF st
  | fuel + 1, c :: cs, old, prevNew, st =>
    let r := alignStep ctx (c :: cs) old prevNew st
    alignLoop ctx fuel r.cur r.old r.prevNew r.st
  | fuel + 1, [], o :: os, prevNew, st =>
    let r := alignStep ctx [] (o :: os) prevNew st
    alignLoop ctx fuel r.cur r.old r.prevNew r.st

/-- `generateChildEdits(currentParent, oldParent)`: set up the per-call
context and run the alignment loops, starting from fresh pending state
(`newEdits = []`, `textAfterID` undefined). -/
def generateChildEditsF (ond nnd : NodeMap) (curD : ElemData) (curChildren : List SNode)
    (oldP : Option (ElemData × List SNode)) (edits : List Edit) (moves : List Nat)
    (anomalies : Nat) : AState :=
  let oldParentID := match oldP with | some p => p.1.tagID | none => 0
  let oldChildren := match oldP with | some p => p.2 | none => []
  let ctx : ACtx :=
    { oldNodeMap := ond, newNodeMap := nnd,
      curParentID := curD.tagID, oldParentID := oldParentID,
      oldLen := oldChildren.length }
  alignLoop ctx (curChildren.length + oldChildren.length) curChildren oldChildren none
    { edits := edits, newEdits := [], textAfterID := none, moves := moves,
      queued := [], anomalies := anomalies }

/-- `queuePush(node)`: only Elements that exist in the old nodeMap go on the
driver queue. -/
def queuePushCond (ond : NodeMap) : SNode → Bool
  | .elem d _ => (nmFind ond d.tagID).isSome
  | .text _ _ => false

/-- The result of one driver iteration: the nodes pushed (already reversed so
the head of the queue list is the next `pop`), and the updated accumulators. -/
structure DStep where
  pushes : List (Bool × SNode)
  edits : List Edit
  moves : List Nat
  anomalies : Nat
  deriving Repr

/-- One iteration of `domdiff`'s do/while driver: pop an element, compare the
three fingerprints against its old counterpart (running the attribute differ
and the child aligner as required, and enqueueing children when the subtree
fingerprint changed), or — for an element absent from the old nodeMap — emit
the root insert when it has no parent and run the aligner in pure-insert
mode.  The Boolean flags whether the node is the parentless root.  (The
queue never contains Text nodes and the nodeMap never maps to Text nodes;
those cases fall through as no-ops.) -/
def driverStep (ond nnd : NodeMap) (isRoot : Bool) (node : SNode)
    (edits : List Edit) (moves : List Nat) (anomalies : Nat) : DStep :=
  match node with
  | .text _ _ => ⟨[], edits, moves, anomalies⟩
  | .elem d cs =>
    match nmFind ond d.tagID with
    | some (_, .elem od ocs) =>
      let edits1 :=
        if d.attributeSignature ≠ od.attributeSignature
        then edits ++ generateAttributeEdits od d else edits
      let stRes :=
        if d.childSignature ≠ od.childSignature
        then generateChildEditsF ond nnd d cs (some (od, ocs)) edits1 moves anomalies
        else { edits := edits1, newEdits := [], textAfterID := none, moves := moves,
               queued := [], anomalies := anomalies }
      let subtreePush :=
        if d.subtreeSignature ≠ od.subtreeSignature
        then cs.filter (queuePushCond ond) else []
      ⟨((stRes.queued ++ subtreePush).map (fun c => (false, c))).reverse,
        stRes.edits, stRes.moves, stRes.anomalies⟩
    | some (_, .text _ _) => ⟨[], edits, moves, anomalies⟩
    | none =>
      let edits1 :=
        if isRoot then
          edits ++
            [{ type := EditType.elementInsert, tag := some d.tag,
               tagID := some d.tagID, parentID := some none,
               attributes := some d.attributes }]
        else edits
      let stRes := generateChildEditsF ond nnd d cs none edits1 moves anomalies
      ⟨(stRes.queued.map (fun c => (false, c))).reverse,
        stRes.edits, stRes.moves, stRes.anomalies⟩

/-- The driver's do/while loop over the LIFO queue (list head = top of
stack).  Fuel `sizeN newNode` suffices because every node is pushed at most
once and only strict descendants of popped nodes are pushed. -/
def driverLoop (ond nnd : NodeMap) :
    Nat → List (Bool × SNode) → List Edit → List Nat → Nat → List Edit × List Nat × Nat
  | _, [], edits, moves, anomalies => (edits, moves, anomalies)
  | 0, _ :: _, edits, moves, anomalies => (edits, moves, anomalies)
  | fuel + 1, q :: rest, edits, moves, anomalies =>
    let r := driverStep ond nnd q.1 q.2 edits moves anomalies
    driverLoop ond nnd fuel (r.pushes ++ rest) r.edits r.moves r.anomalies

/-- `domdiff(oldNode, newNode)` up to the final `rememberNodes` prepend:
returns the edit list, the recorded moved IDs, and the number of
`console.error` anomaly reports. -/
def domdiffFull (oldNode : Option SNode) (newNode : SNode) : List Edit × List Nat × Nat :=
  let ond := match oldNode with | some n => nodeMapN none n | none => []
  let nnd := nodeMapN none newNode
  driverLoop ond nnd (sizeN newNode) [(true, newNode)] [] [] 0

/-- `domdiff(oldNode, newNode)`: the full edit script, with one
`rememberNodes` edit unshifted onto the front when any element moved. -/
def domdiff (oldNode : Option SNode) (newNode : SNode) : List Edit :=
  let r := domdiffFull oldNode newNode
  if r.2.1.isEmpty then r.1
  else { type := EditType.rememberNodes, tagIDs := some r.2.1 } :: r.1

/-- The tagIDs of the `elementMove` edits of a list, in order. -/
def moveIDs (es : List Edit) : List Nat :=
  es.filterMap (fun e => if e.type = .elementMove then e.tagID else none)

/-- Exactly one of three Booleans is set. -/
def exactlyOne (a b c : Bool) : Bool :=
  (a && !b && !c) || (!a && b && !c) || (!a && !b && c)

/-- Structural equivalence of trees in the sense of the spec's round-trip
property: same tag names, same tag IDs, same attribute maps (compared as
maps), same text content and same child order; fingerprints are ignored. -/
def attrsEqB (a b : List (String × String)) : Bool :=
  a.all (fun p => lookupA b p.1 == some p.2) && b.all (fun p => lookupA a p.1 == some p.2)

mutual

/-- Structural equivalence of two nodes. -/
def structEqN : SNode → SNode → Bool
  | .elem d cs, .elem d2 cs2 =>
    d.tag == d2.tag && d.tagID == d2.tagID && attrsEqB d.attributes d2.attributes
      && structEqL cs cs2
  | .text c _, .text c2 _ => c == c2
  | _, _ => false

/-- Structural equivalence of two child lists, in order. -/
def structEqL : List SNode → List SNode → Bool
  | [], [] => true
  | c :: cs, c2 :: cs2 => structEqN c c2 && structEqL cs cs2
  | _, _ => false

end

/-! ### Invariant predicates over edit lists -/

/-- A `textInsert` edit still pending in `newEdits`: it carries content and
parentID, exactly one of `afterID` / `firstChild`, and no `lastChild` yet. -/
def tiPendingOK (e : Edit) : Prop :=
  e.type = .textInsert →
    e.content.isSome = true ∧ e.parentID.isSome = true ∧
    exactlyOne e.afterID.isSome e.firstChild false = true ∧ e.lastChild = false

/-- A `textInsert` edit flushed onto the main list: it carries content and
parentID and exactly one of `afterID` / `firstChild` / `lastChild`. -/
def tiFlushedOK (e : Edit) : Prop :=
  e.type = .textInsert →
    e.content.isSome = true ∧ e.parentID.isSome = true ∧
    exactlyOne e.afterID.isSome e.firstChild e.lastChild = true

/-- Every `elementMove` edit carries a tagID. -/
def moveHasID (e : Edit) : Prop := e.type = .elementMove → e.tagID ≠ none

/-- The alignment invariant over the main edit list, the pending list and the
recorded moves: the `elementMove` tagIDs of the edits (in order) are exactly
the recorded moves, no `rememberNodes` edit is ever produced by the loops,
every `elementMove` edit carries its tagID, and every `textInsert` edit is
well-formed (pending or flushed form respectively). -/
def EInv (edits newEdits : List Edit) (moves : List Nat) : Prop :=
  moveIDs (edits ++ newEdits) = moves ∧
  (∀ e ∈ edits ++ newEdits, e.type ≠ EditType.rememberNodes ∧ moveHasID e) ∧
  (∀ e ∈ newEdits, tiPendingOK e) ∧
  (∀ e ∈ edits, tiFlushedOK e)

/-- `EInv` specialised to an alignment state. -/
def StInv (st : AState) : Prop := EInv st.edits st.newEdits st.moves

/-- `EInv` specialised to the driver accumulators (no pending edits). -/
def DInv (edits : List Edit) (moves : List Nat) : Prop := EInv edits [] moves

/-- The spec's description of the attribute differ (§4.2): `attrAdd` for new
names absent from the old map, `attrChange` for names present with a
different value, nothing for equal values, then `attrDelete` for old names
absent from the new map.  Written from the spec's words, to be compared with
the source-faithful `generateAttributeEdits`. -/
def attrEditsSpec (oldD newD : ElemData) : List Edit :=
  (newD.attributes.filterMap fun p =>
    match lookupA oldD.attributes p.1 with
    | none => some { type := .attrAdd, tagID := some oldD.tagID,
                     attrName := some p.1, value := some p.2 }
    | some v =>
      if v = p.2 then none
      else some { type := .attrChange, tagID := some oldD.tagID,
                  attrName := some p.1, value := some p.2 }) ++
  ((oldD.attributes.filter fun q => (lookupA newD.attributes q.1).isNone).map
    fun q => { type := .attrDelete, tagID := some oldD.tagID, attrName := some q.1 })

/-! ### Concrete input trees used by the individual properties

All fingerprints are chosen consistently with the builder contract (equal
content gets an equal signature, changed content a different one) except
where a property is explicitly about synthetic inconsistent fingerprints. -/

/-- Element `<a id=2>` with no children (used in the reorder inputs). -/
def reordA : SNode := .elem ⟨"a", 2, [], 0, 0, 0⟩ []

/-- Element `<b id=3>` with no children (used in the reorder inputs). -/
def reordB : SNode := .elem ⟨"b", 3, [], 0, 0, 0⟩ []

/-- Old tree `<div id=1><a id=2/><b id=3/></div>`. -/
def reordOld : SNode := .elem ⟨"div", 1, [], 0, 40, 41⟩ [reordA, reordB]

/-- New tree `<div id=1><b id=3/><a id=2/></div>`: the two children are
reordered in place, with unique identities on both sides. -/
def reordNew : SNode := .elem ⟨"div", 1, [], 0, 42, 43⟩ [reordB, reordA]

/-- Old tree for the anomaly-continuation input: the reorder pair followed by
a text child. -/
def contOld : SNode := .elem ⟨"div", 1, [], 0, 40, 41⟩ [reordA, reordB, .text "t" 10]

/-- New tree for the anomaly-continuation input: children reordered and the
text changed. -/
def contNew : SNode := .elem ⟨"div", 1, [], 0, 42, 43⟩ [reordB, reordA, .text "u" 11]

/-- `<span id=7>`, the element that moves from parent 1 to parent 2. -/
def moveS7 : SNode := .elem ⟨"span", 7, [], 0, 70, 70⟩ []

/-- Old tree `<div id=1><span id=7/><p id=2/></div>`. -/
def moveOld : SNode := .elem ⟨"div", 1, [], 0, 10, 11⟩ [moveS7, .elem ⟨"p", 2, [], 0, 20, 20⟩ []]

/-- New tree `<div id=1><p id=2><span id=7/></p></div>`: id 7 has moved from
parent 1 to parent 2, all other content unchanged. -/
def moveNew : SNode := .elem ⟨"div", 1, [], 0, 12, 13⟩ [.elem ⟨"p", 2, [], 0, 21, 21⟩ [moveS7]]

/-- Old tree `<p id=1>abc</p>` represented as three consecutive text
children. -/
def collapseOld : SNode := .elem ⟨"p", 1, [], 0, 40, 41⟩ [.text "a" 10, .text "b" 11, .text "c" 12]

/-- New tree `<p id=1>x</p>`: the whole text run replaced by one new text. -/
def collapseNew : SNode := .elem ⟨"p", 1, [], 0, 42, 43⟩ [.text "x" 20]

/-- Old subtree `<em id=2>p</em>` for the pruning input. -/
def pruneOldChild : SNode := .elem ⟨"em", 2, [], 0, 60, 61⟩ [.text "p" 5]

/-- New subtree `<em id=2>q</em>`: the grandchild text differs but every
fingerprint of id 2 is (synthetically) unchanged. -/
def pruneNewChild : SNode := .elem ⟨"em", 2, [], 0, 60, 61⟩ [.text "q" 6]

/-- Old tree `<div id=1><em id=2>p</em></div>`. -/
def pruneOld : SNode := .elem ⟨"div", 1, [], 0, 30, 31⟩ [pruneOldChild]

/-- New tree `<div id=1><em id=2>q</em></div>`: the root's subtree
fingerprint differs (so the driver visits id 2), but id 2's own fingerprints
claim nothing beneath it changed. -/
def pruneNew : SNode := .elem ⟨"div", 1, [], 0, 30, 32⟩ [pruneNewChild]

/-- Old tree `<p id=1>a</p>` whose single child is a text node. -/
def singleTextOld : SNode := .elem ⟨"p", 1, [], 0, 50, 51⟩ [.text "a" 5]

/-- New tree `<p id=1></p>`: the lone text child removed. -/
def singleTextNew : SNode := .elem ⟨"p", 1, [], 0, 52, 53⟩ []

/-- Old tree `<p id=1></p>` with no children. -/
def trailOld : SNode := .elem ⟨"p", 1, [], 0, 30, 31⟩ []

/-- New tree `<p id=1>x</p>`: a trailing text inserted at the end. -/
def trailNew : SNode := .elem ⟨"p", 1, [], 0, 32, 33⟩ [.text "x" 9]

/-- `<e id=4>` with no children, as it appears in the old run-deletion tree. -/
def runE4old : SNode := .elem ⟨"e", 4, [], 0, 40, 42⟩ []

/-- `<s id=5>`, the element that moves into `<e id=4>` in the run-deletion
input. -/
def runS5 : SNode := .elem ⟨"s", 5, [], 0, 50, 50⟩ []

/-- Old tree `<div id=1><e id=4/>a<s id=5/>b</div>`: two text children
separated by an element that moves away. -/
def runOld : SNode := .elem ⟨"div", 1, [], 0, 100, 102⟩ [runE4old, .text "a" 10, runS5, .text "b" 11]

/-- New tree `<div id=1><e id=4><s id=5/></e></div>`: both texts removed
with no surviving replacement text, id 5 moved under id 4. -/
def runNew : SNode := .elem ⟨"div", 1, [], 0, 101, 103⟩ [.elem ⟨"e", 4, [], 0, 41, 43⟩ [runS5]]

/-- Old tree `<div id=1 class="a"><em id=2>p</em></div>`. -/
def attrPruneOld : SNode := .elem ⟨"div", 1, [("class", "a")], 7, 30, 31⟩ [pruneOldChild]

/-- New tree `<div id=1 class="b"><em id=2>p</em></div>`: only the root's own
attribute changed; its child list and subtree fingerprints are unchanged. -/
def attrPruneNew : SNode := .elem ⟨"div", 1, [("class", "b")], 8, 30, 31⟩ [pruneOldChild]

/-- `<b id=3>`, used twice in the duplicated-identity input. -/
def dupB : SNode := .elem ⟨"b", 3, [], 0, 0, 0⟩ []

/-- Old tree `<div id=1><b id=3/><b id=3/></div>`: a duplicated identity,
the upstream contract violation behind the trailing-drain anomaly. -/
def dupOld : SNode := .elem ⟨"div", 1, [], 0, 60, 62⟩ [dupB, dupB]

/-- New tree `<div id=1><b id=3/></div>`: the trailing duplicate is neither
moved nor deletable (id 3 is still in the new nodeMap under the same
parent), so draining it hits the `console.error` branch at source lines
476-480. -/
def dupNew : SNode := .elem ⟨"div", 1, [], 0, 61, 63⟩ [dupB]

/-! ### Theorems

Supporting lemmas first: preservation of the alignment invariant `EInv` by
every helper of `generateChildEdits`, by one alignment step, by the
alignment loop, and by the driver. -/

theorem moveIDs_append (a b : List Edit) : moveIDs (a ++ b) = moveIDs a ++ moveIDs b := by
  simp [moveIDs]

theorem moveIDs_singleton_ne (e : Edit) (h : e.type ≠ .elementMove) : moveIDs [e] = [] := by
  simp [moveIDs, h]

theorem moveIDs_map_eq (f : Edit → Edit)
    (hf : ∀ e, (f e).type = e.type ∧ (f e).tagID = e.tagID) :
    ∀ l : List Edit, moveIDs (l.map f) = moveIDs l := by
  intro l
  induction l with
  | nil => rfl
  | cons e es ih =>
    simp only [List.map_cons, moveIDs, List.filterMap_cons] at ih ⊢
    rw [(hf e).1, (hf e).2, ih]

theorem tiPendingOK_of_ne (e : Edit) (h : e.type ≠ .textInsert) : tiPendingOK e :=
  fun hT => absurd hT h

theorem tiFlushedOK_of_ne (e : Edit) (h : e.type ≠ .textInsert) : tiFlushedOK e :=
  fun hT => absurd hT h

theorem EInv_append_plain (E N : List Edit) (M : List Nat) (e : Edit) (h : EInv E N M)
    (h1 : e.type ≠ .rememberNodes) (h2 : e.type ≠ .elementMove) (h3 : tiPendingOK e) :
    EInv E (N ++ [e]) M := by
  obtain ⟨hm, hall, hp, hf⟩ := h
  refine ⟨?_, ?_, ?_, hf⟩
  · rw [← List.append_assoc, moveIDs_append, moveIDs_singleton_ne e h2,
      List.append_nil, hm]
  · intro x hx
    rcases List.mem_append.mp hx with hx | hx
    · exact hall x (List.mem_append.mpr (Or.inl hx))
    · rcases List.mem_append.mp hx with hx | hx
      · exact hall x (List.mem_append.mpr (Or.inr hx))
      · rcases List.mem_singleton.mp hx with rfl
        exact ⟨h1, fun hmv => absurd hmv h2⟩
  · intro x hx
    rcases List.mem_append.mp hx with hx | hx
    · exact hp x hx
    · rcases List.mem_singleton.mp hx with rfl
      exact h3

theorem EInv_append_move (E N : List Edit) (M : List Nat) (i : Nat)
    (pid : Option (Option Nat)) (h : EInv E N M) :
    EInv E (N ++ [{ type := .elementMove, tagID := some i, parentID := pid }]) (M ++ [i]) := by
  obtain ⟨hm, hall, hp, hf⟩ := h
  refine ⟨?_, ?_, ?_, hf⟩
  · rw [← List.append_assoc, moveIDs_append, hm]
    simp [moveIDs]
  · intro x hx
    rcases List.mem_append.mp hx with hx | hx
    · exact hall x (List.mem_append.mpr (Or.inl hx))
    · rcases List.mem_append.mp hx with hx | hx
      · exact hall x (List.mem_append.mpr (Or.inr hx))
      · rcases List.mem_singleton.mp hx with rfl
        exact ⟨by simp, fun _ => by simp⟩
  · intro x hx
    rcases List.mem_append.mp hx with hx | hx
    · exact hp x hx
    · rcases List.mem_singleton.mp hx with rfl
      exact tiPendingOK_of_ne _ (by simp)

theorem EInv_flush_map (E N : List Edit) (M : List Nat) (f : Edit → Edit)
    (hty : ∀ e, (f e).type = e.type ∧ (f e).tagID = e.tagID)
    (hti : ∀ e, tiPendingOK e → tiFlushedOK (f e))
    (h : EInv E N M) : EInv (E ++ N.map f) [] M := by
  obtain ⟨hm, hall, hp, hf⟩ := h
  refine ⟨?_, ?_, ?_, ?_⟩
  · rw [List.append_nil, moveIDs_append, moveIDs_map_eq f hty N, ← moveIDs_append, hm]
  · intro x hx
    rw [List.append_nil] at hx
    rcases List.mem_append.mp hx with hx | hx
    · exact hall x (List.mem_append.mpr (Or.inl hx))
    · rcases List.mem_map.mp hx with ⟨e, he, rfl⟩
      have h0 := hall e (List.mem_append.mpr (Or.inr he))
      refine ⟨?_, ?_⟩
      · rw [(hty e).1]; exact h0.1
      · intro hmv
        rw [(hty e).2]
        exact h0.2 (by rw [← (hty e).1]; exact hmv)
  · intro x hx; cases hx
  · intro x hx
    rcases List.mem_append.mp hx with hx | hx
    · exact hf x hx
    · rcases List.mem_map.mp hx with ⟨e, he, rfl⟩
      exact hti e (hp e he)

theorem EInv_map_pending (E N : List Edit) (M : List Nat) (f : Edit → Edit)
    (hty : ∀ e, (f e).type = e.type ∧ (f e).tagID = e.tagID)
    (hti : ∀ e, tiPendingOK e → tiPendingOK (f e))
    (h : EInv E N M) : EInv E (N.map f) M := by
  obtain ⟨hm, hall, hp, hf⟩ := h
  refine ⟨?_, ?_, ?_, hf⟩
  · rw [moveIDs_append, moveIDs_map_eq f hty N, ← moveIDs_append, hm]
  · intro x hx
    rcases List.mem_append.mp hx with hx | hx
    · exact hall x (List.mem_append.mpr (Or.inl hx))
    · rcases List.mem_map.mp hx with ⟨e, he, rfl⟩
      have h0 := hall e (List.mem_append.mpr (Or.inr he))
      refine ⟨by rw [(hty e).1]; exact h0.1, ?_⟩
      intro hmv
      rw [(hty e).2]
      exact h0.2 (by rw [← (hty e).1]; exact hmv)
  · intro x hx
    rcases List.mem_map.mp hx with ⟨e, he, rfl⟩
    exact hti e (hp e he)

theorem EInv_append_flushed (E : List Edit) (M : List Nat) (L : List Edit)
    (hL : ∀ e ∈ L, e.type ≠ .rememberNodes ∧ e.type ≠ .elementMove ∧ tiFlushedOK e)
    (h : EInv E [] M) : EInv (E ++ L) [] M := by
  obtain ⟨hm, hall, _, hf⟩ := h
  rw [List.append_nil] at hm hall
  have hLm : moveIDs L = [] := by
    induction L with
    | nil => rfl
    | cons e es ih =>
      have he := hL e (by simp)
      have hes : ∀ x ∈ es, x.type ≠ .rememberNodes ∧ x.type ≠ .elementMove ∧ tiFlushedOK x :=
        fun x hx => hL x (by simp [hx])
      simp only [moveIDs, List.filterMap_cons, if_neg he.2.1]
      exact ih hes
  refine ⟨?_, ?_, ?_, ?_⟩
  · rw [List.append_nil, moveIDs_append, hLm, List.append_nil, hm]
  · intro x hx
    rw [List.append_nil] at hx
    rcases List.mem_append.mp hx with hx | hx
    · exact hall x hx
    · exact ⟨(hL x hx).1, fun hmv => absurd hmv (hL x hx).2.1⟩
  · intro x hx; cases hx
  · intro x hx
    rcases List.mem_append.mp hx with hx | hx
    · exact hf x hx
    · exact (hL x hx).2.2

theorem finalize_stinv (b : Nat) (st : AState) (h : StInv st) :
    StInv (finalizeNewEditsF b st) := by
  refine EInv_flush_map _ _ _ _ (fun e => ?_) (fun e hp => ?_) h
  · by_cases hd : e.type = EditType.elementDelete <;> simp [hd]
  · intro hT
    by_cases hd : e.type = EditType.elementDelete
    · simp only [if_pos hd] at hT
      rw [hd] at hT
      exact absurd hT (by decide)
    · simp only [if_neg hd] at hT ⊢
      obtain ⟨hc, hpid, hx, hl⟩ := hp hT
      exact ⟨hc, hpid, by rw [hl]; exact hx⟩

theorem finish_stinv (st : AState) (h : StInv st) : StInv (finishChildEditsF st) := by
  refine EInv_flush_map _ _ _ _ (fun e => ?_) (fun e hp => ?_) h
  · by_cases hd : (e.type = EditType.textInsert ∨ e.type = EditType.elementInsert ∨
      e.type = EditType.elementMove) <;> simp [hd]
  · intro hT
    by_cases hd : (e.type = EditType.textInsert ∨ e.type = EditType.elementInsert ∨
      e.type = EditType.elementMove)
    · simp only [if_pos hd] at hT ⊢
      obtain ⟨hc, hpid, _, _⟩ := hp hT
      exact ⟨hc, hpid, rfl⟩
    · simp only [if_neg hd] at hT
      exact absurd (Or.inl hT) hd

theorem fixup_stinv (st : AState) (h : StInv st) : StInv (fixupElementInsertF st) := by
  refine EInv_map_pending _ _ _ _ (fun e => ?_) (fun e hp => ?_) h
  · by_cases hd : e.type = EditType.elementInsert <;> simp [hd]
  · intro hT
    by_cases hd : e.type = EditType.elementInsert
    · simp only [if_pos hd] at hT
      rw [hd] at hT
      exact absurd hT (by decide)
    · simp only [if_neg hd] at hT ⊢
      exact hp hT

theorem addTextInsert_stinv (ctx : ACtx) (c : String) (st : AState) (h : StInv st) :
    StInv (addTextInsertF ctx c st) := by
  refine EInv_append_plain _ _ _ _ h (by simp) (by simp) ?_
  intro _
  refine ⟨rfl, rfl, ?_, rfl⟩
  cases st.textAfterID <;> rfl

theorem addTextDelete_stinv (ctx : ACtx) (prev : Option SNode) (st : AState) (h : StInv st) :
    StInv (addTextDeleteF ctx prev st) := by
  unfold addTextDeleteF
  split
  · exact h
  · rcases prev with _ | n
    · exact EInv_append_plain _ _ _ _ h (by simp) (by simp) (tiPendingOK_of_ne _ (by simp))
    · cases n with
      | elem d cs =>
        exact EInv_append_plain _ _ _ _ h (by simp) (by simp) (tiPendingOK_of_ne _ (by simp))
      | text c s =>
        exact EInv_append_plain _ _ _ _ h (by simp) (by simp) (tiPendingOK_of_ne _ (by simp))

theorem textReplaceBoth_stinv (ctx : ACtx) (c : String) (st : AState) (h : StInv st) :
    StInv (textReplaceBothF ctx c st) :=
  EInv_append_plain _ _ _ _ h (by simp) (by simp) (tiPendingOK_of_ne _ (by simp))

theorem addElementInsert_stinv (ctx : ACtx) (cd : ElemData) (ccs : List SNode)
    (st st2 : AState) (he : addElementInsertF ctx cd ccs st = some st2) (h : StInv st) :
    StInv st2 := by
  unfold addElementInsertF at he
  split at he
  · injection he with he
    subst he
    exact EInv_append_plain _ _ _ _ h (by simp) (by simp) (tiPendingOK_of_ne _ (by simp))
  · cases he

theorem addElementDelete_stinv (ctx : ACtx) (od : ElemData) (st st2 : AState)
    (he : addElementDeleteF ctx od st = some st2) (h : StInv st) : StInv st2 := by
  unfold addElementDeleteF at he
  split at he
  · injection he with he
    subst he
    exact EInv_append_plain _ _ _ _ h (by simp) (by simp) (tiPendingOK_of_ne _ (by simp))
  · cases he

theorem addElementMove_stinv (ctx : ACtx) (cd : ElemData) (st st2 : AState)
    (he : addElementMoveF ctx cd st = some st2) (h : StInv st) : StInv st2 := by
  unfold addElementMoveF at he
  split at he
  · split at he
    · injection he with he
      subst he
      exact EInv_append_move _ _ _ _ _ h
    · cases he
  · cases he

theorem anomaly_stinv (st : AState) (h : StInv st) :
    StInv { st with anomalies := st.anomalies + 1 } := h

theorem alignStep_stinv (ctx : ACtx) (cur old : List SNode) (prev : Option SNode)
    (st : AState) (h : StInv st) : StInv (alignStep ctx cur old prev st).st := by
  rcases cur with _ | ⟨c, cs⟩
  · rcases old with _ | ⟨o, os⟩
    · exact h
    · simp only [alignStep]
      split
      · exact h
      · rcases o with ⟨od, ocs⟩ | ⟨oc, osig⟩
        · simp only
          split
          next st1 heq => exact addElementDelete_stinv _ _ _ _ heq h
          next heq => exact anomaly_stinv _ h
        · exact addTextDelete_stinv _ _ _ h
  · rcases old with _ | ⟨o, os⟩
    · simp only [alignStep]
      rcases c with ⟨cd, ccs⟩ | ⟨tc, tsig⟩
      · simp only
        split
        next st1 heq => exact addElementMove_stinv _ _ _ _ heq h
        next heq =>
          split
          next st1 heq2 => exact addElementInsert_stinv _ _ _ _ _ heq2 h
          next heq2 => exact anomaly_stinv _ h
      · exact addTextInsert_stinv _ _ _ h
    · simp only [alignStep]
      rcases c with ⟨cd, ccs⟩ | ⟨tc, tsig⟩
      · simp only
        split
        next st1 heq => exact addElementMove_stinv _ _ _ _ heq h
        next heq =>
          split
          · exact h
          · rcases o with ⟨od, ocs⟩ | ⟨oc, osig⟩
            · simp only
              split
              · exact finalize_stinv _ _ h
              · split
                next st1 heq2 => exact addElementInsert_stinv _ _ _ _ _ heq2 h
                next heq2 =>
                  split
                  next st1 heq3 => exact addElementDelete_stinv _ _ _ _ heq3 h
                  next heq3 => exact anomaly_stinv _ h
            · simp only
              split
              next st2 heq2 => exact addElementInsert_stinv _ _ _ _ _ heq2 (addTextDelete_stinv _ _ _ h)
              next heq2 => exact addTextDelete_stinv _ _ _ h
      · simp only
        split
        · exact h
        · rcases o with ⟨od, ocs⟩ | ⟨oc, osig⟩
          · simp only
            split
            next st1 heq => exact addElementDelete_stinv _ _ _ _ heq h
            next heq => exact addTextInsert_stinv _ _ _ h
          · simp only
            split
            · exact textReplaceBoth_stinv _ _ _ h
            · exact fixup_stinv _ h

theorem alignLoop_stinv (ctx : ACtx) :
    ∀ (fuel : Nat) (cur old : List SNode) (prev : Option SNode) (st : AState),
      StInv st → StInv (alignLoop ctx fuel cur old prev st) := by
  intro fuel
  induction fuel with
  | zero =>
    intro cur old prev st h
    rcases cur with _ | ⟨c, cs⟩ <;> rcases old with _ | ⟨o, os⟩ <;>
      simp only [alignLoop] <;> exact finish_stinv _ h
  | succ n ih =>
    intro cur old prev st h
    rcases cur with _ | ⟨c, cs⟩
    · rcases old with _ | ⟨o, os⟩
      · simp only [alignLoop]
        exact finish_stinv _ h
      · simp only [alignLoop]
        exact ih _ _ _ _ (alignStep_stinv ctx [] (o :: os) prev st h)
    · simp only [alignLoop]
      exact ih _ _ _ _ (alignStep_stinv ctx (c :: cs) old prev st h)

theorem alignLoop_newEdits_nil (ctx : ACtx) :
    ∀ (fuel : Nat) (cur old : List SNode) (prev : Option SNode) (st : AState),
      (alignLoop ctx fuel cur old prev st).newEdits = [] := by
  intro fuel
  induction fuel with
  | zero =>
    intro cur old prev st
    rcases cur with _ | ⟨c, cs⟩ <;> rcases old with _ | ⟨o, os⟩ <;>
      simp only [alignLoop] <;> rfl
  | succ n ih =>
    intro cur old prev st
    rcases cur with _ | ⟨c, cs⟩
    · rcases old with _ | ⟨o, os⟩
      · simp only [alignLoop]; rfl
      · simp only [alignLoop]; exact ih _ _ _ _
    · simp only [alignLoop]; exact ih _ _ _ _

theorem stinv_to_dinv (st : AState) (h : StInv st) (hn : st.newEdits = []) :
    DInv st.edits st.moves := by
  unfold DInv
  rw [← hn]
  exact h

theorem gce_stinv (ond nnd : NodeMap) (curD : ElemData) (curChildren : List SNode)
    (oldP : Option (ElemData × List SNode)) (edits : List Edit) (moves : List Nat)
    (an : Nat) (h : DInv edits moves) :
    StInv (generateChildEditsF ond nnd curD curChildren oldP edits moves an) :=
  alignLoop_stinv _ _ _ _ _ _ h

theorem gce_newEdits_nil (ond nnd : NodeMap) (curD : ElemData) (curChildren : List SNode)
    (oldP : Option (ElemData × List SNode)) (edits : List Edit) (moves : List Nat)
    (an : Nat) :
    (generateChildEditsF ond nnd curD curChildren oldP edits moves an).newEdits = [] :=
  alignLoop_newEdits_nil _ _ _ _ _ _

theorem gaeFold_shape (t : Nat) :
    ∀ (l : List (String × String)) (acc : List Edit × List (String × String)),
      (∀ e ∈ acc.1, (e.type = EditType.attrAdd ∨ e.type = EditType.attrChange ∨
        e.type = EditType.attrDelete) ∧ e.tagID = some t) →
      ∀ e ∈ (l.foldl (gaeStep t) acc).1,
        (e.type = EditType.attrAdd ∨ e.type = EditType.attrChange ∨
          e.type = EditType.attrDelete) ∧ e.tagID = some t := by
  intro l
  induction l with
  | nil => intro acc hacc; exact hacc
  | cons p ps ih =>
    intro acc hacc
    simp only [List.foldl_cons]
    apply ih
    unfold gaeStep
    dsimp only
    split
    · intro e he
      rcases List.mem_append.mp he with he | he
      · exact hacc e he
      · rcases List.mem_singleton.mp he with rfl
        refine ⟨?_, rfl⟩
        by_cases hs : (lookupA acc.2 p.1).isSome
        · exact Or.inr (Or.inl (by simp [hs]))
        · exact Or.inl (by simp [hs])
    · exact hacc

theorem gae_shape (oldD newD : ElemData) :
    ∀ e ∈ generateAttributeEdits oldD newD,
      (e.type = EditType.attrAdd ∨ e.type = EditType.attrChange ∨
        e.type = EditType.attrDelete) ∧ e.tagID = some oldD.tagID := by
  unfold generateAttributeEdits
  intro e he
  rcases List.mem_append.mp he with he | he
  · exact gaeFold_shape _ _ _ (by intro x hx; cases hx) e he
  · rcases List.mem_map.mp he with ⟨q, hq, rfl⟩
    exact ⟨Or.inr (Or.inr rfl), rfl⟩

theorem DInv_append_attrs (E : List Edit) (M : List Nat) (oldD newD : ElemData)
    (h : DInv E M) : DInv (E ++ generateAttributeEdits oldD newD) M :=
  EInv_append_flushed _ _ _ (fun e he => by
    rcases (gae_shape oldD newD e he).1 with ht | ht | ht <;>
      exact ⟨by simp [ht], by simp [ht], tiFlushedOK_of_ne _ (by simp [ht])⟩) h

theorem driverStep_dinv (ond nnd : NodeMap) (r : Bool) (node : SNode)
    (edits : List Edit) (moves : List Nat) (an : Nat) (h : DInv edits moves) :
    DInv (driverStep ond nnd r node edits moves an).edits
         (driverStep ond nnd r node edits moves an).moves := by
  rcases node with ⟨d, cs⟩ | ⟨c, s⟩
  · simp only [driverStep]
    split
    next pr od ocs heq =>
      have h1 : DInv (if d.attributeSignature ≠ od.attributeSignature
          then edits ++ generateAttributeEdits od d else edits) moves := by
        split
        · exact DInv_append_attrs _ _ _ _ h
        · exact h
      simp only
      split
      · exact stinv_to_dinv _ (gce_stinv _ _ _ _ _ _ _ _ h1) (gce_newEdits_nil _ _ _ _ _ _ _ _)
      · exact h1
    next pr c2 s2 heq => exact h
    next heq =>
      have h1 : DInv (if r = true then
          edits ++
            [{ type := EditType.elementInsert, tag := some d.tag,
               tagID := some d.tagID, parentID := some none,
               attributes := some d.attributes }]
          else edits) moves := by
        split
        · exact EInv_append_flushed _ _ _
            (fun e he => by
              rcases List.mem_singleton.mp he with rfl
              exact ⟨by simp, by simp, tiFlushedOK_of_ne _ (by simp)⟩) h
        · exact h
      exact stinv_to_dinv _ (gce_stinv _ _ _ _ _ _ _ _ h1) (gce_newEdits_nil _ _ _ _ _ _ _ _)
  · exact h

theorem driverLoop_dinv (ond nnd : NodeMap) :
    ∀ (fuel : Nat) (q : List (Bool × SNode)) (edits : List Edit) (moves : List Nat) (an : Nat),
      DInv edits moves →
      DInv (driverLoop ond nnd fuel q edits moves an).1
           (driverLoop ond nnd fuel q edits moves an).2.1 := by
  intro fuel
  induction fuel with
  | zero =>
    intro q edits moves an h
    rcases q with _ | ⟨p, rest⟩ <;> simp only [driverLoop] <;> exact h
  | succ n ih =>
    intro q edits moves an h
    rcases q with _ | ⟨p, rest⟩
    · simp only [driverLoop]; exact h
    · simp only [driverLoop]
      exact ih _ _ _ _ (driverStep_dinv _ _ _ _ _ _ _ h)

theorem DInv_nil : DInv [] [] := by
  refine ⟨rfl, ?_, ?_, ?_⟩ <;> intro e he <;> simp at he

theorem domdiffFull_dinv (o : Option SNode) (n : SNode) :
    DInv (domdiffFull o n).1 (domdiffFull o n).2.1 := by
  unfold domdiffFull
  exact driverLoop_dinv _ _ _ _ _ _ _ DInv_nil

theorem mem_moveIDs (es : List Edit) (e : Edit) (i : Nat) (he : e ∈ es)
    (ht : e.type = EditType.elementMove) (hi : e.tagID = some i) : i ∈ moveIDs es := by
  unfold moveIDs
  exact List.mem_filterMap.mpr ⟨e, he, by rw [if_pos ht]; exact hi⟩

theorem exists_move_of_moveIDs_cons (es : List Edit) (m : Nat) (ms : List Nat)
    (h : moveIDs es = m :: ms) : ∃ e ∈ es, e.type = EditType.elementMove := by
  have hm : m ∈ moveIDs es := by rw [h]; exact List.mem_cons_self _ _
  rcases List.mem_filterMap.mp hm with ⟨e, he, hf⟩
  by_cases ht : e.type = EditType.elementMove
  · exact ⟨e, he, ht⟩
  · rw [if_neg ht] at hf
    cases hf

theorem moveIDs_cons_ne (e : Edit) (es : List Edit) (h : e.type ≠ EditType.elementMove) :
    moveIDs (e :: es) = moveIDs es := by
  simp [moveIDs, h]

/-- The move-out step of the aligner: a new-side Element whose identity is in
the old nodeMap under a different parent produces exactly one `elementMove`
pending edit and one recorded move, and advances only the new pointer —
regardless of whether old children remain (main loop) or not (trailing
drain). -/
theorem alignStep_move (ctx : ACtx) (cd : ElemData) (ccs cs old : List SNode)
    (prev : Option SNode) (st : AState) (p : Option Nat) (x : SNode)
    (hfind : nmFind ctx.oldNodeMap cd.tagID = some (p, x)) (hp : p ≠ some ctx.curParentID) :
    alignStep ctx (.elem cd ccs :: cs) old prev st =
      ⟨cs, old, some (.elem cd ccs),
       { st with
         newEdits := st.newEdits ++
           [{ type := .elementMove, tagID := some cd.tagID,
              parentID := some (some ctx.curParentID) }],
         moves := st.moves ++ [cd.tagID] }⟩ := by
  have hmove : addElementMoveF ctx cd st =
      some { st with
        newEdits := st.newEdits ++
          [{ type := .elementMove, tagID := some cd.tagID,
             parentID := some (some ctx.curParentID) }],
        moves := st.moves ++ [cd.tagID] } := by
    unfold addElementMoveF
    rw [hfind]
    simp only [if_pos hp]
  rcases old with _ | ⟨o, os⟩ <;> simp only [alignStep, hmove]

/-- The text-run merge of `addTextDelete`: when the pending list already ends
with a `textReplace` following the same anchor, a further old text child is
consumed without any new edit. -/
theorem addTextDelete_merge (ctx : ACtx) (prev : Option SNode) (st : AState)
    (h : mergedCond st = true) : addTextDeleteF ctx prev st = st := by
  unfold addTextDeleteF
  rw [if_pos h]

/-- The trailing-old drain consumes a further old text child with no new edit
when it merges into the pending `textReplace` for the same anchor. -/
theorem alignStep_text_merge (ctx : ACtx) (c : String) (s : Nat) (os : List SNode)
    (prev : Option SNode) (st : AState) (h : mergedCond st = true) :
    alignStep ctx [] (.text c s :: os) prev st = ⟨[], os, prev, st⟩ := by
  simp [alignStep, hasMovedF, addTextDelete_merge ctx prev st h]

/-- The alignment anomaly: two same-position Elements with different
identities, where the new one exists in the old tree under this very parent
(so it is not a move and not an insert) and the old one exists in the new
tree under this very parent (so it has not moved away and is not a delete).
The step reports the anomaly and advances both pointers, leaving the edits
untouched. -/
theorem alignStep_anomaly (ctx : ACtx) (cd od : ElemData) (ccs ocs cs os : List SNode)
    (prev : Option SNode) (st : AState) (xc xo : SNode)
    (hfc : nmFind ctx.oldNodeMap cd.tagID = some (some ctx.curParentID, xc))
    (hfo : nmFind ctx.newNodeMap od.tagID = some (some ctx.oldParentID, xo))
    (hne : cd.tagID ≠ od.tagID) :
    alignStep ctx (.elem cd ccs :: cs) (.elem od ocs :: os) prev st =
      ⟨cs, os, some (.elem cd ccs), { st with anomalies := st.anomalies + 1 }⟩ := by
  have hmove : addElementMoveF ctx cd st = none := by
    unfold addElementMoveF
    rw [hfc]
    simp
  have hmoved : hasMovedF ctx (.elem od ocs) = false := by
    simp only [hasMovedF]
    rw [hfo]
    simp
  have hins : addElementInsertF ctx cd ccs st = none := by
    unfold addElementInsertF
    simp [hfc]
  have hdel : addElementDeleteF ctx od st = none := by
    unfold addElementDeleteF
    simp [hfo]
  simp [alignStep, hmove, hmoved, hins, hdel, hne]

/-- The trailing-drain anomaly (source lines 476-480): a leftover old
Element that has not moved (it is still under this very parent in the new
tree) yet cannot be deleted (its identity is in the new nodeMap).  The drain
reports the anomaly, advances the old pointer and leaves the edits
untouched. -/
theorem alignStep_drain_anomaly (ctx : ACtx) (od : ElemData) (ocs os : List SNode)
    (prev : Option SNode) (st : AState) (xo : SNode)
    (hfo : nmFind ctx.newNodeMap od.tagID = some (some ctx.oldParentID, xo)) :
    alignStep ctx [] (.elem od ocs :: os) prev st =
      ⟨[], os, prev, { st with anomalies := st.anomalies + 1 }⟩ := by
  have hmoved : hasMovedF ctx (.elem od ocs) = false := by
    simp only [hasMovedF]
    rw [hfo]
    simp
  have hdel : addElementDeleteF ctx od st = none := by
    unfold addElementDeleteF
    simp [hfo]
  simp [alignStep, hmoved, hdel]

/-- The driver's pruning step: a matched element pair whose child-list and
subtree fingerprints are unchanged is popped with nothing enqueued — the
driver never visits any of the element's descendants — and the only edits
possibly appended are attribute edits addressed to the element itself,
none at all when the attribute fingerprint is also unchanged. -/
theorem driverStep_prune (ond nnd : NodeMap) (r : Bool) (d : ElemData) (cs : List SNode)
    (edits : List Edit) (moves : List Nat) (an : Nat) (p : Option Nat)
    (od : ElemData) (ocs : List SNode)
    (hfind : nmFind ond d.tagID = some (p, .elem od ocs))
    (hc : d.childSignature = od.childSignature)
    (hs : d.subtreeSignature = od.subtreeSignature) :
    (driverStep ond nnd r (.elem d cs) edits moves an).pushes = [] ∧
    (driverStep ond nnd r (.elem d cs) edits moves an).moves = moves ∧
    (driverStep ond nnd r (.elem d cs) edits moves an).anomalies = an ∧
    ∃ attrEdits : List Edit,
      (driverStep ond nnd r (.elem d cs) edits moves an).edits = edits ++ attrEdits ∧
      (∀ e ∈ attrEdits,
        (e.type = EditType.attrAdd ∨ e.type = EditType.attrChange ∨
          e.type = EditType.attrDelete) ∧ e.tagID = some od.tagID) ∧
      (d.attributeSignature = od.attributeSignature → attrEdits = []) := by
  have hstep : driverStep ond nnd r (.elem d cs) edits moves an =
      ⟨[], if d.attributeSignature ≠ od.attributeSignature
            then edits ++ generateAttributeEdits od d else edits, moves, an⟩ := by
    simp [driverStep, hfind, hc, hs]
  rw [hstep]
  refine ⟨rfl, rfl, rfl, ?_⟩
  by_cases ha : d.attributeSignature = od.attributeSignature
  · refine ⟨[], ?_, ?_, fun _ => rfl⟩
    · simp [ha]
    · intro e he
      simp at he
  · refine ⟨generateAttributeEdits od d, ?_, gae_shape od d, fun hEq => absurd hEq ha⟩
    rw [if_pos ha]

theorem lookupA_filter_ne (l : List (String × String)) (k x : String) (hk : k ≠ x) :
    lookupA (l.filter (fun q => q.1 ≠ x)) k = lookupA l k := by
  induction l with
  | nil => rfl
  | cons p rest ih =>
    by_cases hx : p.1 = x
    · rw [List.filter_cons_of_neg (by simp [hx])]
      have hpk : p.1 ≠ k := fun hEq => hk (hEq.symm.trans hx)
      rw [ih]
      simp only [lookupA, if_neg hpk]
    · rw [List.filter_cons_of_pos (by simp [hx])]
      simp only [lookupA]
      by_cases hpk : p.1 = k
      · simp [hpk]
      · simp only [if_neg hpk]
        exact ih

/-- The attribute fold, characterised: given distinct new attribute names,
folding `gaeStep` over them starting from the full old map yields exactly
the adds/changes dictated by the *original* old map, and leaves exactly the
old entries whose names are absent from the new list. -/
theorem gaeFold_spec (t : Nat) (A0 : List (String × String)) :
    ∀ (l : List (String × String)) (es : List Edit) (oldA : List (String × String)),
      (l.map Prod.fst).Nodup →
      (∀ name ∈ l.map Prod.fst, lookupA oldA name = lookupA A0 name) →
      l.foldl (gaeStep t) (es, oldA) =
        (es ++ l.filterMap (fun p =>
          match lookupA A0 p.1 with
          | none => some { type := EditType.attrAdd, tagID := some t,
                           attrName := some p.1, value := some p.2 }
          | some v =>
            if v = p.2 then none
            else some { type := EditType.attrChange, tagID := some t,
                        attrName := some p.1, value := some p.2 }),
         oldA.filter (fun q => (lookupA l q.1).isNone)) := by
  intro l
  induction l with
  | nil =>
    intro es oldA _ _
    simp [lookupA]
  | cons p ps ih =>
    intro es oldA h1 h2
    have hl : lookupA oldA p.1 = lookupA A0 p.1 := h2 p.1 (by simp)
    have h1c : (p.1 :: ps.map Prod.fst).Nodup := by rw [List.map_cons] at h1; exact h1
    have hnodup := List.nodup_cons.mp h1c
    have h2' : ∀ name ∈ ps.map Prod.fst,
        lookupA (oldA.filter (fun q => q.1 ≠ p.1)) name = lookupA A0 name := by
      intro name hn
      have hne : name ≠ p.1 := fun hEq => hnodup.1 (hEq ▸ hn)
      rw [lookupA_filter_ne _ _ _ hne, h2 name (by simp [hn])]
    rw [List.foldl_cons]
    rw [show gaeStep t (es, oldA) p =
        ((if lookupA oldA p.1 ≠ some p.2 then
            es ++ [{ type := if (lookupA oldA p.1).isSome then .attrChange else .attrAdd,
                     tagID := some t, attrName := some p.1, value := some p.2 }]
          else es),
         oldA.filter (fun q => q.1 ≠ p.1)) from rfl]
    rw [ih _ _ hnodup.2 h2']
    congr 1
    · rw [List.filterMap_cons]
      rcases hA : lookupA A0 p.1 with _ | v
      · rw [hA] at hl
        simp [hl]
      · rw [hA] at hl
        by_cases hv : v = p.2
        · subst hv
          simp [hl]
        · simp [hl, hv]
    · rw [List.filter_filter]
      apply List.filter_congr
      intro q hq
      by_cases hpq : p.1 = q.1
      · simp [lookupA, hpq]
      · have hqp : q.1 ≠ p.1 := fun hEq => hpq hEq.symm
        simp [lookupA, if_neg hpq, hqp]

/-- C1: The round-trip property fails on the code.  For the unique-identity
input pair that merely reorders two sibling elements in place, `domdiff`
returns the empty edit sequence (after two alignment-anomaly reports), yet
the two trees are not structurally equivalent — so no applier can turn the
old tree into the new one from this output.  The claim that applying
`domdiff(old, new)` always reproduces `new` for trees with unique identities
is therefore violated by the code at this input. -/
theorem roundtrip_violation_on_reorder :
    domdiff (some reordOld) reordNew = [] ∧
    structEqN reordOld reordNew = false ∧
    (domdiffFull (some reordOld) reordNew).2.2 = 2 :=
  ⟨rfl, rfl, rfl⟩

/-- C4: diffing a snapshot against itself yields the empty edit sequence:
the root is matched with itself, all three fingerprints compare equal, so no
edits are generated and nothing is enqueued. -/
theorem domdiff_self_is_empty (d : ElemData) (cs : List SNode) :
    domdiff (some (.elem d cs)) (.elem d cs) = [] := by
  simp [domdiff, domdiffFull, sizeN, nodeMapN, driverLoop, driverStep, nmFind]

/-- C4 witness: the no-op diff at a concrete two-level tree. -/
theorem domdiff_self_is_empty_witness : domdiff (some moveOld) moveOld = [] :=
  domdiff_self_is_empty ⟨"div", 1, [], 0, 10, 11⟩
    [moveS7, .elem ⟨"p", 2, [], 0, 20, 20⟩ []]

/-- C2: When a new-side child Element's identity exists in the old tree's
nodeMap under a different parent, the aligner emits an `elementMove` with
that tagID and the current parent as `parentID`, records the moved ID for
`rememberNodes`, and advances only the new-side pointer (first conjunct, for
any state and either loop phase).  On the concrete scenario moving id 7 from
parent 1 to parent 2 with all other content identical, the output begins
with `rememberNodes(tagIDs=[7])`, contains `elementMove(tagID=7,
parentID=2)`, and contains no `elementInsert`/`elementDelete` for id 7. -/
theorem elementMove_step_and_scenario :
    (∀ (ctx : ACtx) (cd : ElemData) (ccs cs old : List SNode) (prev : Option SNode)
        (st : AState) (p : Option Nat) (x : SNode),
      nmFind ctx.oldNodeMap cd.tagID = some (p, x) →
      p ≠ some ctx.curParentID →
      alignStep ctx (.elem cd ccs :: cs) old prev st =
        ⟨cs, old, some (.elem cd ccs),
         { st with
           newEdits := st.newEdits ++
             [{ type := .elementMove, tagID := some cd.tagID,
                parentID := some (some ctx.curParentID) }],
           moves := st.moves ++ [cd.tagID] }⟩) ∧
    (domdiff (some moveOld) moveNew).head? =
      some { type := EditType.rememberNodes, tagIDs := some [7] } ∧
    ({ type := EditType.elementMove, tagID := some 7, parentID := some (some 2),
       lastChild := true } : Edit) ∈ domdiff (some moveOld) moveNew ∧
    (∀ e ∈ domdiff (some moveOld) moveNew,
      (e.type = EditType.elementInsert ∨ e.type = EditType.elementDelete) →
        e.tagID ≠ some 7) :=
  ⟨alignStep_move, rfl, by decide, by decide⟩

/-- C2 witness: the move step applied at the concrete moved element id 7
under new parent id 2. -/
theorem elementMove_step_and_scenario_witness :
    alignStep ⟨nodeMapN none moveOld, nodeMapN none moveNew, 2, 0, 0⟩
        [moveS7] [] none ⟨[], [], none, [], [], 0⟩ =
      ⟨[], [], some moveS7,
       ⟨[], [{ type := EditType.elementMove, tagID := some 7, parentID := some (some 2) }],
        none, [7], [], 0⟩⟩ :=
  elementMove_step_and_scenario.1 _ ⟨"span", 7, [], 0, 70, 70⟩ [] [] [] none
    ⟨[], [], none, [], [], 0⟩ (some 1) moveS7 rfl (by decide)

/-- C3: the output contains a `rememberNodes` edit iff it contains an
`elementMove` edit; a `rememberNodes` edit never occurs past the head (so it
is first and unique when present), and when present its `tagIDs` field is
exactly the list of tagIDs of all `elementMove` edits of the output. -/
theorem rememberNodes_iff_moves (o : Option SNode) (n : SNode) :
    ((∃ e ∈ domdiff o n, e.type = EditType.rememberNodes) ↔
      (∃ e ∈ domdiff o n, e.type = EditType.elementMove)) ∧
    (∀ e ∈ (domdiff o n).tail, e.type ≠ EditType.rememberNodes) ∧
    (∀ e ∈ domdiff o n, e.type = EditType.rememberNodes →
      (domdiff o n).head? = some e ∧ e.tagIDs = some (moveIDs (domdiff o n))) := by
  obtain ⟨hmv, hall, -, -⟩ := domdiffFull_dinv o n
  rw [List.append_nil] at hmv hall
  rcases hM : (domdiffFull o n).2.1 with _ | ⟨m, ms⟩
  · rw [hM] at hmv
    have hd : domdiff o n = (domdiffFull o n).1 := by simp [domdiff, hM]
    rw [hd]
    refine ⟨⟨?_, ?_⟩, ?_, ?_⟩
    · rintro ⟨e, he, ht⟩
      exact absurd ht (hall e he).1
    · rintro ⟨e, he, ht⟩
      have hid := (hall e he).2 ht
      rcases hi : e.tagID with _ | i
      · exact absurd hi hid
      · have hmem : i ∈ moveIDs (domdiffFull o n).1 := mem_moveIDs _ _ _ he ht hi
        rw [hmv] at hmem
        cases hmem
    · intro e he
      exact (hall e (List.mem_of_mem_tail he)).1
    · intro e he ht
      exact absurd ht (hall e he).1
  · rw [hM] at hmv
    have hd : domdiff o n =
        { type := EditType.rememberNodes, tagIDs := some (m :: ms) } ::
          (domdiffFull o n).1 := by
      simp [domdiff, hM]
    rw [hd]
    have hmid : moveIDs ({ type := EditType.rememberNodes, tagIDs := some (m :: ms) } ::
        (domdiffFull o n).1) = m :: ms := by
      rw [moveIDs_cons_ne _ _ (by simp), hmv]
    refine ⟨?_, ?_, ?_⟩
    · constructor
      · intro _
        rcases exists_move_of_moveIDs_cons _ _ _ hmv with ⟨e, he, ht⟩
        exact ⟨e, List.mem_cons_of_mem _ he, ht⟩
      · intro _
        exact ⟨_, List.mem_cons_self _ _, rfl⟩
    · intro e he
      simp only [List.tail_cons] at he
      exact (hall e he).1
    · intro e he ht
      rcases List.mem_cons.mp he with rfl | he2
      · exact ⟨rfl, by rw [hmid]⟩
      · exact absurd ht (hall e he2).1

/-- C3 witness: the property at the concrete move input (whose output does
contain a `rememberNodes` edit). -/
theorem rememberNodes_iff_moves_witness :
    (∃ e ∈ domdiff (some moveOld) moveNew, e.type = EditType.rememberNodes) ∧
    (((∃ e ∈ domdiff (some moveOld) moveNew, e.type = EditType.rememberNodes) ↔
      (∃ e ∈ domdiff (some moveOld) moveNew, e.type = EditType.elementMove)) ∧
    (∀ e ∈ (domdiff (some moveOld) moveNew).tail, e.type ≠ EditType.rememberNodes) ∧
    (∀ e ∈ domdiff (some moveOld) moveNew, e.type = EditType.rememberNodes →
      (domdiff (some moveOld) moveNew).head? = some e ∧
      e.tagIDs = some (moveIDs (domdiff (some moveOld) moveNew)))) :=
  ⟨by decide, rememberNodes_iff_moves (some moveOld) moveNew⟩

/-- C5 counterexample: a removed text run with *no* surviving replacement
text is not collapsed.  The merge guard of `addTextDelete` (source line 286)
requires the pending edit to be a `textReplace`, so the input that removes
the texts of `<div id=1><e id=4/>a<s id=5/>b</div>` while moving id 5 under
id 4 emits one `textDelete` per removed text node: two `textDelete` edits
following the same `afterID = 4` anchor — refuting the claim that
consecutive text deletions following the same anchor always collapse into a
single instruction. -/
theorem textDelete_not_collapsed_counterexample :
    domdiff (some runOld) runNew =
      [{ type := EditType.rememberNodes, tagIDs := some [5] },
       { type := EditType.textDelete, parentID := some (some 1), afterID := some 4 },
       { type := EditType.textDelete, parentID := some (some 1), afterID := some 4 },
       { type := EditType.elementMove, tagID := some 5, parentID := some (some 4),
         lastChild := true }] ∧
    ((domdiff (some runOld) runNew).filter
        (fun e => e.type == EditType.textDelete && e.afterID == some 4)).length = 2 :=
  ⟨rfl, by decide⟩

/-- C5 (amended): an old text run replaced by a single different text
collapses into one `textReplace`: whenever the pending edit for the same
anchor is a `textReplace`, a further removed old text is consumed with the
state untouched and only the old pointer advancing (first two conjuncts);
when no such `textReplace` is pending, each removed text child pushes
exactly one edit of its own (third conjunct).  On the concrete input
replacing three consecutive text children by one different text, the whole
output is exactly one `textReplace` for that parent. -/
theorem text_run_collapse :
    (∀ (ctx : ACtx) (prev : Option SNode) (st : AState),
        mergedCond st = true → addTextDeleteF ctx prev st = st) ∧
    (∀ (ctx : ACtx) (c : String) (s : Nat) (os : List SNode) (prev : Option SNode)
        (st : AState), mergedCond st = true →
        alignStep ctx [] (.text c s :: os) prev st = ⟨[], os, prev, st⟩) ∧
    (∀ (ctx : ACtx) (prev : Option SNode) (st : AState), mergedCond st = false →
        ∃ e, addTextDeleteF ctx prev st = { st with newEdits := st.newEdits ++ [e] } ∧
          (e.type = EditType.textReplace ∨ e.type = EditType.textDelete)) ∧
    domdiff (some collapseOld) collapseNew =
      [{ type := EditType.textReplace, content := some "x", parentID := some (some 1) }] ∧
    ((domdiff (some collapseOld) collapseNew).filter
        (fun e => e.type == EditType.textReplace)).length = 1 := by
  refine ⟨addTextDelete_merge, alignStep_text_merge, ?_, rfl, by decide⟩
  intro ctx prev st hm
  unfold addTextDeleteF
  simp only [hm, Bool.false_eq_true, if_false]
  rcases prev with _ | n
  · exact ⟨_, rfl, Or.inr rfl⟩
  · cases n with
    | elem d cs2 => exact ⟨_, rfl, Or.inr rfl⟩
    | text c s => exact ⟨_, rfl, Or.inl rfl⟩

/-- C5 witness: the merge applied at a state whose pending list ends with a
`textReplace` for the same (absent) anchor. -/
theorem text_run_collapse_witness :
    mergedCond ⟨[], [{ type := EditType.textReplace, content := some "a", parentID := some (some 1) }], none, [], [], 0⟩ = true ∧
    addTextDeleteF ⟨[], [], 1, 1, 3⟩ (some (.text "a" 10))
        ⟨[], [{ type := EditType.textReplace, content := some "a", parentID := some (some 1) }], none, [], [], 0⟩ =
      ⟨[], [{ type := EditType.textReplace, content := some "a", parentID := some (some 1) }], none, [], [], 0⟩ :=
  ⟨rfl, text_run_collapse.1 _ _ _ rfl⟩

/-- C6: a matched element pair whose child-list and subtree fingerprints are
unchanged is popped by the driver with nothing enqueued — the driver never
descends into any descendant, so no edit is ever generated for anything
beneath the element — and the only edits possibly appended are attribute
edits addressed to the element itself, none at all when its attribute
fingerprint is also unchanged (first conjunct; the child-fingerprint
hypothesis is part of the builder contract, since the subtree fingerprint
covers everything beneath the element, while the element's own attributes
are legitimately allowed to differ).  Concretely: with a grandchild's text
content differing while every fingerprint (synthetically) claims no change,
the whole diff is empty; and with only the root's own attribute changed
under unchanged child/subtree fingerprints, the diff is exactly one
`attrChange` on the root itself and nothing within its subtree. -/
theorem subtree_pruning :
    (∀ (ond nnd : NodeMap) (r : Bool) (d : ElemData) (cs : List SNode)
        (edits : List Edit) (moves : List Nat) (an : Nat) (p : Option Nat)
        (od : ElemData) (ocs : List SNode),
      nmFind ond d.tagID = some (p, .elem od ocs) →
      d.childSignature = od.childSignature →
      d.subtreeSignature = od.subtreeSignature →
      (driverStep ond nnd r (.elem d cs) edits moves an).pushes = [] ∧
      (driverStep ond nnd r (.elem d cs) edits moves an).moves = moves ∧
      (driverStep ond nnd r (.elem d cs) edits moves an).anomalies = an ∧
      ∃ attrEdits : List Edit,
        (driverStep ond nnd r (.elem d cs) edits moves an).edits = edits ++ attrEdits ∧
        (∀ e ∈ attrEdits,
          (e.type = EditType.attrAdd ∨ e.type = EditType.attrChange ∨
            e.type = EditType.attrDelete) ∧ e.tagID = some od.tagID) ∧
        (d.attributeSignature = od.attributeSignature → attrEdits = [])) ∧
    domdiff (some pruneOld) pruneNew = [] ∧
    domdiff (some attrPruneOld) attrPruneNew =
      [{ type := EditType.attrChange, tagID := some 1, attrName := some "class",
         value := some "b" }] :=
  ⟨driverStep_prune, rfl, rfl⟩

/-- C6 witness: the pruning step applied at the concrete matched root pair
whose subtree fingerprint is unchanged while its own attribute changed. -/
theorem subtree_pruning_witness :
    (driverStep (nodeMapN none attrPruneOld) (nodeMapN none attrPruneNew) true
        (.elem ⟨"div", 1, [("class", "b")], 8, 30, 31⟩ [pruneOldChild]) [] [] 0).pushes = [] ∧
    (driverStep (nodeMapN none attrPruneOld) (nodeMapN none attrPruneNew) true
        (.elem ⟨"div", 1, [("class", "b")], 8, 30, 31⟩ [pruneOldChild]) [] [] 0).moves = [] ∧
    (driverStep (nodeMapN none attrPruneOld) (nodeMapN none attrPruneNew) true
        (.elem ⟨"div", 1, [("class", "b")], 8, 30, 31⟩ [pruneOldChild]) [] [] 0).anomalies = 0 ∧
    ∃ attrEdits : List Edit,
      (driverStep (nodeMapN none attrPruneOld) (nodeMapN none attrPruneNew) true
          (.elem ⟨"div", 1, [("class", "b")], 8, 30, 31⟩ [pruneOldChild]) [] [] 0).edits =
        [] ++ attrEdits ∧
      (∀ e ∈ attrEdits,
        (e.type = EditType.attrAdd ∨ e.type = EditType.attrChange ∨
          e.type = EditType.attrDelete) ∧ e.tagID = some 1) ∧
      ((8 : Nat) = 7 → attrEdits = []) :=
  subtree_pruning.1 _ _ _ _ _ _ _ _ none ⟨"div", 1, [("class", "a")], 7, 30, 31⟩
    [pruneOldChild] rfl rfl rfl

/-- C7: both recognized anomalies are reported and skipped without aborting.
The main-loop anomaly (same-position Elements with different identities,
neither an insert, delete nor move) is reported and both pointers advance,
the edits so far untouched (first conjunct).  The trailing-drain anomaly (a
leftover old Element that has not moved yet cannot be deleted because its
identity is still in the new nodeMap — source lines 476-480) is reported
and the affected (old) pointer advances, the edits untouched (second
conjunct).  `domdiff` is a total function, so it always returns an edit
sequence and no exception crosses the API boundary.  Concretely: the
reorder-plus-text-change input reports two anomalies and still produces the
`textReplace` for the rest of the tree; the duplicated-identity input
reports the trailing-drain anomaly once and still returns an edit
sequence. -/
theorem anomaly_reported_and_continues :
    (∀ (ctx : ACtx) (cd od : ElemData) (ccs ocs cs os : List SNode)
        (prev : Option SNode) (st : AState) (xc xo : SNode),
      nmFind ctx.oldNodeMap cd.tagID = some (some ctx.curParentID, xc) →
      nmFind ctx.newNodeMap od.tagID = some (some ctx.oldParentID, xo) →
      cd.tagID ≠ od.tagID →
      alignStep ctx (.elem cd ccs :: cs) (.elem od ocs :: os) prev st =
        ⟨cs, os, some (.elem cd ccs), { st with anomalies := st.anomalies + 1 }⟩) ∧
    (∀ (ctx : ACtx) (od : ElemData) (ocs os : List SNode) (prev : Option SNode)
        (st : AState) (xo : SNode),
      nmFind ctx.newNodeMap od.tagID = some (some ctx.oldParentID, xo) →
      alignStep ctx [] (.elem od ocs :: os) prev st =
        ⟨[], os, prev, { st with anomalies := st.anomalies + 1 }⟩) ∧
    (domdiffFull (some contOld) contNew).2.2 = 2 ∧
    domdiff (some contOld) contNew =
      [{ type := EditType.textReplace, content := some "u", parentID := some (some 1) }] ∧
    (domdiffFull (some dupOld) dupNew).2.2 = 1 ∧
    domdiff (some dupOld) dupNew = [] :=
  ⟨alignStep_anomaly, alignStep_drain_anomaly, rfl, rfl, rfl, rfl⟩

/-- C7 witness: the main-loop anomaly step at the concrete reordered pair
(ids 3 and 2 at the same position under parent 1 on both sides), and the
trailing-drain anomaly step at the concrete duplicated id 3. -/
theorem anomaly_reported_and_continues_witness :
    (alignStep ⟨nodeMapN none contOld, nodeMapN none contNew, 1, 1, 3⟩
        [reordB] [reordA] none ⟨[], [], none, [], [], 0⟩ =
      ⟨[], [], some reordB, ⟨[], [], none, [], [], 1⟩⟩) ∧
    (alignStep ⟨nodeMapN none dupOld, nodeMapN none dupNew, 1, 1, 2⟩
        [] [dupB] none ⟨[], [], none, [], [], 0⟩ =
      ⟨[], [], none, ⟨[], [], none, [], [], 1⟩⟩) :=
  ⟨anomaly_reported_and_continues.1 _ ⟨"b", 3, [], 0, 0, 0⟩ ⟨"a", 2, [], 0, 0, 0⟩
      [] [] [] [] none ⟨[], [], none, [], [], 0⟩ reordB reordA rfl rfl (by decide),
   anomaly_reported_and_continues.2.1 _ ⟨"b", 3, [], 0, 0, 0⟩ [] [] none
      ⟨[], [], none, [], [], 0⟩ dupB rfl⟩

/-- C8: the attribute differ (a fold over the new names against a shrinking
copy of the old map) computes exactly the spec's description: one `attrAdd`
per new-only name, one `attrChange` (with the new value) per name present in
both with different values, nothing for equal values, then one `attrDelete`
per old-only name — given that the new attribute map has distinct names, as
JS object keys always are.  Both sides are pure functions of the inputs, so
neither input node is mutated. -/
theorem generateAttributeEdits_matches_spec (oldD newD : ElemData)
    (hNew : (newD.attributes.map Prod.fst).Nodup) :
    generateAttributeEdits oldD newD = attrEditsSpec oldD newD := by
  simp only [generateAttributeEdits, attrEditsSpec]
  rw [gaeFold_spec oldD.tagID oldD.attributes newD.attributes [] oldD.attributes hNew
    (fun _ _ => rfl)]
  simp

/-- C8 witness: the characterization applied at the spec's single-attribute
example (old `class="a"`, new `class="b"`), whose output is exactly one
`attrChange`. -/
theorem generateAttributeEdits_matches_spec_witness :
    ((([("class", "b")] : List (String × String)).map Prod.fst).Nodup) ∧
    generateAttributeEdits ⟨"div", 5, [("class", "a")], 0, 0, 0⟩
        ⟨"div", 5, [("class", "b")], 1, 0, 0⟩ =
      attrEditsSpec ⟨"div", 5, [("class", "a")], 0, 0, 0⟩
        ⟨"div", 5, [("class", "b")], 1, 0, 0⟩ ∧
    generateAttributeEdits ⟨"div", 5, [("class", "a")], 0, 0, 0⟩
        ⟨"div", 5, [("class", "b")], 1, 0, 0⟩ =
      [{ type := EditType.attrChange, tagID := some 5, attrName := some "class",
         value := some "b" }] :=
  ⟨by decide, generateAttributeEdits_matches_spec _ _ (by decide), rfl⟩

/-- C9: when the old parent had exactly one child, the `textReplace` /
`textDelete` produced by `addTextDelete` carries only its type, its content
(for `textReplace`) and the parentID — no `afterID` and no other positional
anchor (first conjunct).  Concretely, removing the single text child of
parent 1 yields exactly one anchorless `textDelete` with `parentID = 1`. -/
theorem textDelete_single_child_anchorless :
    (∀ (ctx : ACtx) (prev : Option SNode) (st : AState),
        ctx.oldLen = 1 → mergedCond st = false →
        ∃ e, addTextDeleteF ctx prev st = { st with newEdits := st.newEdits ++ [e] } ∧
          e.afterID = none ∧ e.beforeID = none ∧ e.firstChild = false ∧
          e.lastChild = false ∧ e.parentID = some (some ctx.oldParentID) ∧
          e.tagID = none ∧ e.tag = none ∧ e.attrName = none ∧ e.value = none ∧
          e.attributes = none ∧ e.tagIDs = none ∧
          (e.type = EditType.textReplace ∨ e.type = EditType.textDelete)) ∧
    domdiff (some singleTextOld) singleTextNew =
      [{ type := EditType.textDelete, parentID := some (some 1) }] := by
  refine ⟨?_, rfl⟩
  intro ctx prev st hlen hm
  unfold addTextDeleteF
  simp only [hm, Bool.false_eq_true, if_false, if_pos hlen]
  rcases prev with _ | n
  · exact ⟨_, rfl, rfl, rfl, rfl, rfl, rfl, rfl, rfl, rfl, rfl, rfl, rfl, Or.inr rfl⟩
  · cases n with
    | elem d cs2 =>
      exact ⟨_, rfl, rfl, rfl, rfl, rfl, rfl, rfl, rfl, rfl, rfl, rfl, rfl, Or.inr rfl⟩
    | text c s =>
      exact ⟨_, rfl, rfl, rfl, rfl, rfl, rfl, rfl, rfl, rfl, rfl, rfl, rfl, Or.inl rfl⟩

/-- C9 witness: the anchorless single-child deletion at a concrete context
with old parent id 1 and one old child. -/
theorem textDelete_single_child_anchorless_witness :
    (⟨[], [], 0, 1, 1⟩ : ACtx).oldLen = 1 ∧
    mergedCond ⟨[], [], none, [], [], 0⟩ = false ∧
    (∃ e, addTextDeleteF ⟨[], [], 0, 1, 1⟩ none ⟨[], [], none, [], [], 0⟩ =
        { (⟨[], [], none, [], [], 0⟩ : AState) with newEdits := [] ++ [e] } ∧
      e.afterID = none ∧ e.beforeID = none ∧ e.firstChild = false ∧
      e.lastChild = false ∧ e.parentID = some (some 1) ∧
      e.tagID = none ∧ e.tag = none ∧ e.attrName = none ∧ e.value = none ∧
      e.attributes = none ∧ e.tagIDs = none ∧
      (e.type = EditType.textReplace ∨ e.type = EditType.textDelete)) :=
  ⟨rfl, rfl, textDelete_single_child_anchorless.1 ⟨[], [], 0, 1, 1⟩ none
    ⟨[], [], none, [], [], 0⟩ rfl rfl⟩

/-- C10 counterexample: a trailing `textInsert` (appended after the old
children are exhausted) is finalised by setting `lastChild` and deleting
`firstChild` and `afterID`, so it carries *neither* `afterID` nor
`firstChild` — refuting the claim that every `textInsert` carries exactly
one of the two, at the concrete input inserting text into a previously
childless parent. -/
theorem textInsert_missing_anchor_counterexample :
    domdiff (some trailOld) trailNew =
      [{ type := EditType.textInsert, content := some "x",
         parentID := some (some 1), lastChild := true }] ∧
    ∃ e ∈ domdiff (some trailOld) trailNew,
      e.type = EditType.textInsert ∧ e.afterID = none ∧ e.firstChild = false :=
  ⟨rfl, by decide⟩

/-- C10 (amended): every `textInsert` edit of the output carries a content
and a parentID and exactly one of `afterID`, `firstChild`, `lastChild`. -/
theorem textInsert_field_invariant (o : Option SNode) (n : SNode) :
    ∀ e ∈ domdiff o n, e.type = EditType.textInsert →
      e.content.isSome = true ∧ e.parentID.isSome = true ∧
      exactlyOne e.afterID.isSome e.firstChild e.lastChild = true := by
  obtain ⟨-, -, -, hflush⟩ := domdiffFull_dinv o n
  intro e he ht
  rcases hM : (domdiffFull o n).2.1 with _ | ⟨m, ms⟩
  · have hd : domdiff o n = (domdiffFull o n).1 := by simp [domdiff, hM]
    rw [hd] at he
    exact hflush e he ht
  · have hd : domdiff o n =
        { type := EditType.rememberNodes, tagIDs := some (m :: ms) } ::
          (domdiffFull o n).1 := by
      simp [domdiff, hM]
    rw [hd] at he
    rcases List.mem_cons.mp he with rfl | he2
    · exact absurd ht (by simp)
    · exact hflush e he2 ht

/-- C10 (amended) witness: the invariant at the concrete trailing-insert
input, whose output does contain a `textInsert` edit. -/
theorem textInsert_field_invariant_witness :
    (∃ e ∈ domdiff (some trailOld) trailNew, e.type = EditType.textInsert) ∧
    (∀ e ∈ domdiff (some trailOld) trailNew, e.type = EditType.textInsert →
      e.content.isSome = true ∧ e.parentID.isSome = true ∧
      exactlyOne e.afterID.isSome e.firstChild e.lastChild = true) :=
  ⟨by decide, textInsert_field_invariant (some trailOld) trailNew⟩

end HTMLDOMDiff
